import Mathlib

/-!
# Shrdlite planning pipeline: a shallow embedding with proofs

This file embeds, in Lean 4, the core of the Shrdlite course project
(TypeScript sources: the generic A* search of `Graph.ts`, the planner of
`Planner.ts` with its goal test, heuristic and state-space model, and the
interpreter of `Interpreter.ts` with its physics and quantifier checks),
and proves or refutes a fixed list of specification claims about it.

Modelling conventions:

* JavaScript numbers used as costs are modelled as `Int`; array indices and
  stack heights are `Nat`.  `string | null` fields are `Option String`.
* The priority queue and dictionary come from an external collections
  library that is not part of the repository; following the specification
  they are modelled as an ideal max-priority queue (dequeue returns the
  first enqueued element whose priority is maximal under the comparison
  function, evaluated against the current cost map) and an association
  list keyed by node value (the library dictionary keys by `toString`,
  which on the planner's nodes is an injective JSON serialisation, so value
  equality is the faithful reading).
* Functions that can `throw` are modelled in `Except String`; the two
  unbounded loops of the search (the main loop and the path
  reconstruction, which can genuinely diverge) take explicit fuel, and
  fuel exhaustion is the outer `none` of the result type, distinct from
  the source's `undefined` "no path" outcome which is `some none`.
-/

namespace Shrdlite

/-- An edge in a graph (`Graph.ts`, class `Edge`). -/
structure Edge (Node : Type) where
  src : Node
  eto : Node
  cost : Int
deriving DecidableEq, Repr

/-- A directed graph (`Graph.ts`, interface `Graph`).  `compareNodes` is
part of the source interface but is never consulted by `aStarSearch`. -/
structure Graph (Node : Type) where
  outgoingEdges : Node → List (Edge Node)
  compareNodes : Node → Node → Int

/-- Result of a search (`Graph.ts`, class `SearchResult`). -/
structure SearchResult (Node : Type) where
  path : List Node
  cost : Int
deriving DecidableEq, Repr

/-- First-match lookup in an association list; models
`collections.Dictionary.getValue` (entries are prepended on update, so the
first match is the latest write). -/
def getValue [DecidableEq κ] : List (κ × α) → κ → Option α
  | [], _ => none
  | (k', v) :: rest, k => if k' = k then some v else getValue rest k

/-- Models `collections.Dictionary.setValue`: the new binding shadows any
older binding for the same key under `getValue`. -/
def setValue [DecidableEq κ] (d : List (κ × α)) (k : κ) (v : α) : List (κ × α) :=
  (k, v) :: d

/-- The priority of a queued node inside `aStarSearch`: recorded cost plus
heuristic.  Every enqueued node has a recorded cost; the default `0` is
never reached on states produced by the search. -/
def fval [DecidableEq Node] (costs : List (Node × Int)) (heuristics : Node → Int)
    (n : Node) : Int :=
  (getValue costs n).getD 0 + heuristics n

/-- Dequeue from the ideal priority queue: remove the earliest-enqueued
element with minimal `f` (the source's comparer `bCost - aCost` makes the
collections max-priority queue dequeue a minimal-`f` node; ties fall to
insertion order). -/
def extractMin (f : Node → Int) : List Node → Option (Node × List Node)
  | [] => none
  | x :: xs =>
    match extractMin f xs with
    | none => some (x, [])
    | some (y, ys) => if f x ≤ f y then some (x, xs) else (some (y, x :: ys))

/-- The relaxation loop over `graph.outgoingEdges(node)` in `aStarSearch`:
for each edge, if the target is unseen or the tentative cost is strictly
smaller, record predecessor and cost and enqueue the target.  `nodeCost` is
read once before the loop, as in the source. -/
def relaxEdges [DecidableEq Node] (node : Node) (nodeCost : Int) :
    List (Edge Node) → List (Node × Int) × List (Node × Node) × List Node →
    List (Node × Int) × List (Node × Node) × List Node
  | [], st => st
  | e :: es, (costs, paths, pushed) =>
    let newCost := nodeCost + e.cost
    if getValue costs e.eto = none ∨ newCost < (getValue costs e.eto).getD 0 then
      relaxEdges node nodeCost es
        (setValue costs e.eto newCost, setValue paths e.eto node, pushed ++ [e.eto])
    else
      relaxEdges node nodeCost es (costs, paths, pushed)

/-- The main loop of `aStarSearch`.  Returns `none` when the fuel runs out
(the source loop can diverge), `some none` when the frontier is exhausted
(the source then returns `undefined`), and the dequeued goal node together
with the final cost and predecessor maps on success. -/
def aStarLoop [DecidableEq Node] (graph : Graph Node) (goal : Node → Bool)
    (heuristics : Node → Int) :
    Nat → List Node → List (Node × Int) → List (Node × Node) →
    Option (Option (Node × List (Node × Int) × List (Node × Node)))
  | 0, _, _, _ => none
  | _ + 1, [], _, _ => some none
  | fuel + 1, q@(_ :: _), costs, paths =>
    match extractMin (fval costs heuristics) q with
    | none => some none
    | some (node, q') =>
      if goal node then some (some (node, costs, paths))
      else
        let nodeCost := (getValue costs node).getD 0
        let st := relaxEdges node nodeCost (graph.outgoingEdges node) (costs, paths, [])
        aStarLoop graph goal heuristics fuel (q' ++ st.2.2) st.1 st.2.1

/-- The path-reconstruction loop of `aStarSearch`
(`for(; node != start; node = paths.getValue(node)) result.path.unshift(node)`).
The source's `node != start` is read as value inequality (JavaScript
compares primitive nodes by value, and recorded predecessors are the
dequeued values themselves).  A missing predecessor makes the source loop
run forever, so it is fuel exhaustion (`none`) here. -/
def rebuild [DecidableEq Node] (paths : List (Node × Node)) (start : Node) :
    Nat → Node → Option (List Node)
  | 0, _ => none
  | fuel + 1, node =>
    if node = start then some []
    else
      match getValue paths node with
      | none => none
      | some p => (rebuild paths start fuel p).map (fun l => l ++ [node])

/-- Model of `aStarSearch` from `Graph.ts`: A* with lazy deletion and reopening.
The `timeout` argument is part of the source signature but is never used
by the body. -/
def aStarSearch [DecidableEq Node] (graph : Graph Node) (start : Node)
    (goal : Node → Bool) (heuristics : Node → Int) (timeout : Int) (fuel : Nat) :
    Option (Option (SearchResult Node)) :=
  match aStarLoop graph goal heuristics fuel [start] (setValue [] start 0) [] with
  | none => none
  | some none => some none
  | some (some (node, costs, paths)) =>
    match rebuild paths start fuel node with
    | none => none
    | some p => some (some ⟨p, (getValue costs node).getD 0⟩)

/-! ## Interpreter module (`Interpreter.ts`) -/

/-- An object of the world (`ObjectDefinition` from `World.ts`): form, size
and color, all open strings as in the source. -/
structure ObjectDefinition where
  form : String
  size : String
  color : String
deriving DecidableEq, Repr

/-- A relational literal (`Interpreter.Literal`). -/
structure Literal where
  polarity : Bool
  relation : String
  args : List String
deriving DecidableEq, Repr

/-- An object reference produced by entity resolution
(`Interpreter.ObjectRef` / `Position`): an identifier plus an optional
stack position (absent for the floor sentinel). -/
structure ObjectRef where
  objId : String
  stack : Option Int
  posInStack : Option Int
deriving DecidableEq, Repr

namespace Interpreter

/-- Model of `Interpreter.checkPhysics` (`Interpreter.ts`): the physics predicate.
A destination without a descriptor (`dstObj === undefined` in the source,
`none` here) is the floor sentinel and short-circuits to `true`. -/
def checkPhysics (srcId : String) (srcObj : ObjectDefinition) (relation : String)
    (dstId : String) (dstObj : Option ObjectDefinition) : Bool :=
  if srcId = dstId then false
  else
    match dstObj with
    | none => true
    | some dstObj =>
      if srcObj.form = "floor" then false
      else if relation = "inside" then
        if dstObj.form ≠ "box" then false
        else if srcObj.size = "large" ∧ dstObj.size = "small" then false
        else if (srcObj.form = "pyramid" ∨ srcObj.form = "plank" ∨ srcObj.form = "box") ∧
            dstObj.form = "box" ∧ srcObj.size = dstObj.size then false
        else true
      else if relation = "ontop" then
        if dstObj.form = "box" then false
        else if srcObj.size = "large" ∧ dstObj.size = "small" then false
        else if srcObj.form = "ball" ∧ dstObj.form ≠ "floor" then false
        else if srcObj.size = "small" ∧ srcObj.form = "box" ∧ dstObj.size = "small" ∧
            (dstObj.form = "pyramid" ∨ dstObj.form = "plank") then false
        else if srcObj.size = "large" ∧ srcObj.form = "box" ∧ dstObj.size = "large" ∧
            dstObj.form = "pyramid" then false
        else true
      else if relation = "under" then
        if dstObj.form = "floor" then false
        else if dstObj.size = "large" ∧ srcObj.size = "small" then false
        else if dstObj.form = "ball" ∧ srcObj.form ≠ "floor" ∧ srcObj.form ≠ "box" then false
        else true
      else if relation = "beside" then
        if dstObj.form = "floor" then false
        else true
      else true

/-- Model of `Interpreter.checkQuantifier` (`Interpreter.ts`): groups resolved
entities according to the quantifier, or throws. -/
def checkQuantifier (quantifier : String) (entities : List ObjectRef) :
    Except String (List (List ObjectRef)) :=
  if quantifier = "the" then
    if entities.length > 1 then .error "\"the\" is ambigous"
    else .ok [entities]
  else if quantifier = "any" then .ok (entities.map (fun x => [x]))
  else if quantifier = "all" then .ok [entities]
  else .error ("unknown quantifier \"" ++ quantifier ++ "\"")

/-- The `forEach`/`try`/`catch` accumulation of `Interpreter.interpret` and
`Planner.plan`: each input is processed independently; successes and
caught errors are collected in input order.  The per-item computation
(`interpretCommand` resp. `planInterpretation`) is the parameter `f`. -/
def interpretAux (f : α → Except ε β) : List α → List β × List ε
  | [] => ([], [])
  | x :: xs =>
    let rest := interpretAux f xs
    match f x with
    | .ok b => (b :: rest.1, rest.2)
    | .error e => (rest.1, e :: rest.2)

/-- Model of `Interpreter.interpret` (`Interpreter.ts`): returns the successful
interpretations if there are any, otherwise throws the first collected
error.  When the input list is empty the source does `throw errors[0]`
with an empty `errors` array, throwing `undefined`; the thrown value is
therefore modelled by `Option ε`. -/
def interpret (f : α → Except ε β) (parses : List α) : Except (Option ε) (List β) :=
  let st := interpretAux f parses
  if st.1.length ≠ 0 then .ok st.1 else .error st.2.head?

end Interpreter

namespace Planner

/-- Model of `Planner.plan` (`Planner.ts`): same driver pattern as
`Interpreter.interpret`, except that a successful empty plan is replaced
by the notice `"That is already true!"` before being collected. -/
def plan (f : α → Except ε (List String)) (interpretations : List α) :
    Except (Option ε) (List (List String)) :=
  let st := Interpreter.interpretAux
    (fun x => (f x).map (fun p => if p.length = 0 then ["That is already true!"] else p))
    interpretations
  if st.1.length ≠ 0 then .ok st.1 else .error st.2.head?

end Planner

/-! ## Planner module (`Planner.ts`): state space, goal test, heuristic -/

/-- A position in the world: stack index `x`, height `y` (`Coordinate`). -/
structure Coordinate where
  x : Nat
  y : Nat
deriving DecidableEq, Repr

/-- A planning node (`Planner.ts`, class `PNode`): the stacks, the held
object, the arm column, and the action label ("l", "r", "p" or "d",
`null` for the start node) that produced this state. -/
structure PNode where
  «stacks» : List (List String)
  holding : Option String
  arm : Nat
  action : Option String
deriving DecidableEq, Repr

/-- Model of `Math.abs(a - b)` on the natural coordinates used by the planner. -/
def absDiff (a b : Nat) : Nat := max a b - min a b

/-- The double loop of `findIndex` (`Planner.ts`): first stack containing
the object, first position within it. -/
def findIndexAux (obj : String) : List (List String) → Option Coordinate
  | [] => none
  | s :: rest =>
    match s.findIdx? (· == obj) with
    | some j => some ⟨0, j⟩
    | none => (findIndexAux obj rest).map (fun c => ⟨c.x + 1, c.y⟩)

/-- Model of `findIndex` (`Planner.ts`): the coordinate of an object in the stacks;
throws `"no index for " + obj` when the object is in no stack. -/
def findIndex (obj : String) («stacks» : List (List String)) : Except String Coordinate :=
  match findIndexAux obj «stacks» with
  | some c => .ok c
  | none => .error ("no index for " ++ obj)

/-- One literal of the inner loop of `goal` (`Planner.ts`): `.ok true`
when the literal holds in the state (`condSatisfied` stays `true`),
`.ok false` when it fails, and the `findIndex` error when a positional
argument is in no stack. -/
def goalLit (n : PNode) (condition : Literal) : Except String Bool :=
  let firstArg := condition.args[0]?.getD ""
  if condition.relation = "holding" then
    .ok (n.holding = some firstArg)
  else
    let secArg := condition.args[1]?.getD ""
    if n.holding = some firstArg ∨ n.holding = some secArg then .ok false
    else do
      let firstCord ← findIndex firstArg n.stacks
      if secArg = "floor" then
        if condition.relation = "ontop" then pure (decide (firstCord.y = 0))
        else pure true
      else do
        let secCord ← findIndex secArg n.stacks
        if condition.relation = "leftof" then pure (decide (firstCord.x < secCord.x))
        else if condition.relation = "rightof" then pure (decide (secCord.x < firstCord.x))
        else if condition.relation = "above" then
          pure (decide (firstCord.x = secCord.x ∧ secCord.y < firstCord.y))
        else if condition.relation = "under" then
          pure (decide (firstCord.x = secCord.x ∧ firstCord.y < secCord.y))
        else if condition.relation = "beside" then
          pure (decide (absDiff firstCord.x secCord.x = 1))
        else if condition.relation = "ontop" ∨ condition.relation = "inside" then
          pure (decide (firstCord.x = secCord.x ∧ firstCord.y - secCord.y = 1))
        else pure true

/-- The conjunction loop of `goal`: literals in order, stopping at the
first unsatisfied one (the source's `break`). -/
def goalConj (n : PNode) : List Literal → Except String Bool
  | [] => .ok true
  | c :: rest => do
    let s ← goalLit n c
    if s then goalConj n rest else .ok false

/-- Model of `goal` (`Planner.ts`): the DNF goal test; true as soon as one
conjunction is fully satisfied. -/
def goal (interpretation : List (List Literal)) (n : PNode) : Except String Bool :=
  match interpretation with
  | [] => .ok false
  | conj :: rest => do
    let s ← goalConj n conj
    if s then .ok true else goal rest n

/-- The per-literal cost of `heuristics` (`Planner.ts`): the body of the
inner loop, as a function of the state and one literal (each branch only
adds a state-independent amount to the accumulator `andMin`). -/
def heuristicsLit (node : PNode) (lit : Literal) : Except String Nat :=
  let a0 := lit.args[0]?.getD ""
  if lit.relation = "holding" then
    if node.holding = some a0 then .ok 0
    else do
      let srcCoord ← findIndex a0 node.stacks
      .ok ((if node.holding ≠ none then 1 else 0) + absDiff node.arm srcCoord.x + 1)
  else
    let a1 := lit.args[1]?.getD ""
    if node.holding = some a0 then
      if a1 = "floor" then .ok 1
      else do
        let dstCoord ← findIndex a1 node.stacks
        .ok (absDiff dstCoord.x node.arm + (if lit.relation = "beside" then 1 else 0) + 1)
    else if node.holding = some a1 then do
      let srcCoord ← findIndex a0 node.stacks
      let dstCoord : Coordinate := ⟨node.arm, (node.stacks.getD node.arm []).length⟩
      .ok (1 + absDiff node.arm srcCoord.x + 1 + absDiff dstCoord.x srcCoord.x + 1)
    else do
      let srcCoord ← findIndex a0 node.stacks
      let base := (if node.holding ≠ none then 1 else 0) + absDiff node.arm srcCoord.x + 1
      if a1 = "floor" then .ok (base + 1 + 1)
      else do
        let dstCoord ← findIndex a1 node.stacks
        .ok (base + absDiff dstCoord.x srcCoord.x + (if lit.relation = "beside" then 1 else 0) + 1)

/-- The conjunction loop of `heuristics`: `andMin` accumulated over the
literals in order. -/
def heuristicsConj (node : PNode) : List Literal → Except String Nat
  | [] => .ok 0
  | l :: rest => do
    let c ← heuristicsLit node l
    let r ← heuristicsConj node rest
    .ok (c + r)

/-- The outer loop of `heuristics`: `min` starts at `Infinity` (`⊤`) and is
lowered by each conjunction's `andMin`. -/
def heuristicsGo (node : PNode) : List (List Literal) → WithTop Nat →
    Except String (WithTop Nat)
  | [], acc => .ok acc
  | ands :: rest, acc => do
    let s ← heuristicsConj node ands
    heuristicsGo node rest (min acc ↑s)

/-- Model of `heuristics` (`Planner.ts`): estimated distance from a state to the
DNF goal. -/
def heuristics (ors : List (List Literal)) (node : PNode) : Except String (WithTop Nat) :=
  heuristicsGo node ors ⊤

/-! ## `PGraph` (`Planner.ts`): the state-space model -/

namespace PGraph

/-- Model of `PGraph.outgoingEdges` (`Planner.ts`).  `objects` is the world's
object dictionary (`this.objects`), modelled as a total map: every
identifier occurring in a reachable state is a key of the source
dictionary.  The four candidate actions in source order: move left, move
right, pick, drop.  Indexing `node.stacks[node.arm]` is modelled with the
empty-column default (the source would crash on an out-of-range arm, and
the claims about this function carry the in-range hypothesis where it
matters). -/
def outgoingEdges (objects : String → ObjectDefinition) (node : PNode) :
    List (Edge PNode) :=
  (if 0 < node.arm then
    [⟨node, ⟨node.stacks, node.holding, node.arm - 1, some "l"⟩, 1⟩]
  else []) ++
  (if node.arm < node.stacks.length - 1 then
    [⟨node, ⟨node.stacks, node.holding, node.arm + 1, some "r"⟩, 1⟩]
  else []) ++
  (if node.holding = none ∧ (node.stacks.getD node.arm []) ≠ [] then
    [⟨node,
      ⟨node.stacks.set node.arm (node.stacks.getD node.arm []).dropLast,
       (node.stacks.getD node.arm []).getLast?, node.arm, some "p"⟩, 1⟩]
  else []) ++
  (match node.holding with
   | none => []
   | some src =>
     if (node.stacks.getD node.arm []).length < node.stacks.length then
       let col := node.stacks.getD node.arm []
       let physicsOk := col.isEmpty ||
         (let dstId := col.getLast?.getD ""
          let dstObj := objects dstId
          let relation := if dstObj.form = "box" then "inside" else "ontop"
          Interpreter.checkPhysics src (objects src) relation dstId (some dstObj))
       if physicsOk then
         [⟨node, ⟨node.stacks.set node.arm (col ++ [src]), none, node.arm, some "d"⟩, 1⟩]
       else []
     else [])

end PGraph

/-! ## `PNode.toString`: the dictionary key used by the search

The collections `Dictionary` keys its entries by `key.toString()`, and
`PNode` overrides `toString` with `JSON.stringify(this)`, which serialises
the four data fields in declaration order (the `toString` closure itself
is a function and is skipped by `JSON.stringify`). -/

/-- Escaping of `JSON.stringify` for the characters that can occur in object
identifiers (backslash and double quote; identifiers contain no control
characters). -/
def jsonEscapeChar (c : Char) : String :=
  if c = '\\' then "\\\\"
  else if c = '"' then "\\\""
  else String.singleton c

/-- A JSON string literal. -/
def jsonStr (s : String) : String :=
  "\"" ++ String.join (s.toList.map jsonEscapeChar) ++ "\""

/-- A JSON array from already-serialised elements. -/
def jsonArr (elts : List String) : String :=
  "[" ++ String.intercalate "," elts ++ "]"

/-- Model of `PNode.toString` (`Planner.ts`): `JSON.stringify(this)`. -/
def PNode.toString (n : PNode) : String :=
  "\x7b\"stacks\":" ++ jsonArr (n.stacks.map (fun s => jsonArr (s.map jsonStr))) ++
  ",\"holding\":" ++ (match n.holding with | none => "null" | some s => jsonStr s) ++
  ",\"arm\":" ++ Nat.repr n.arm ++
  ",\"action\":" ++ (match n.action with | none => "null" | some s => jsonStr s) ++
  "\x7d"

/-- Model of `collections.Dictionary.setValue` specialised to `PNode` keys: the
stored key is `key.toString()`. -/
def pnodeDictSet (d : List (String × α)) (key : PNode) (v : α) : List (String × α) :=
  (key.toString, v) :: d

/-- Model of `collections.Dictionary.getValue` specialised to `PNode` keys. -/
def pnodeDictGet (d : List (String × α)) (key : PNode) : Option α :=
  getValue d key.toString

/-! ## Claim C10 -/

/-- C10: the result of `aStarSearch` is independent of its `timeout`
argument — for any two timeout values the calls return identical results;
the parameter is never consulted inside the search. -/
theorem C10_timeout_independent {Node : Type} [DecidableEq Node] (graph : Graph Node)
    (start : Node) (goalFun : Node → Bool) (heuristicsFun : Node → Int)
    (t1 t2 : Int) (fuel : Nat) :
    aStarSearch graph start goalFun heuristicsFun t1 fuel =
      aStarSearch graph start goalFun heuristicsFun t2 fuel := rfl

/-- Witness for C10 at a concrete one-edge graph and two distinct
timeouts. -/
theorem C10_timeout_independent_witness :
    aStarSearch (Graph.mk (fun n => if n = 0 then [⟨0, 1, 1⟩] else []) (fun _ _ => 0))
        0 (fun n => n == 1) (fun _ => 0) 5 10 =
      aStarSearch (Graph.mk (fun n => if n = 0 then [⟨0, 1, 1⟩] else []) (fun _ _ => 0))
        0 (fun n => n == 1) (fun _ => 0) 99 10 :=
  C10_timeout_independent _ 0 _ _ 5 99 10

/-! ## Claim C7 -/

/-- C7 counterexample: the claim says that `checkPhysics` with relation
`"beside"` and the descriptor-less floor sentinel as destination returns
`false`; the source short-circuits on `dstObj === undefined` *before* the
relation switch, so it returns `true`. -/
theorem C7_counterexample :
    Interpreter.checkPhysics "a" ⟨"ball", "small", "red"⟩ "beside" "floor" none = true := rfl

/-- C7 amended: with relation `"beside"`, a destination *without* a
descriptor (the floor sentinel) is approved (`true`) whenever the two
identifiers differ — the `dstObj === undefined` short-circuit precedes the
relation switch — while a destination whose descriptor has form `"floor"`
is rejected (`false`). -/
theorem C7_beside_floor (srcId : String) (srcObj : ObjectDefinition)
    (dstId : String) (dstObj : ObjectDefinition) :
    (srcId ≠ dstId → Interpreter.checkPhysics srcId srcObj "beside" dstId none = true) ∧
    (dstObj.form = "floor" →
      Interpreter.checkPhysics srcId srcObj "beside" dstId (some dstObj) = false) := by
  constructor
  · intro hne
    simp [Interpreter.checkPhysics, hne]
  · intro hfl
    unfold Interpreter.checkPhysics
    split_ifs <;> simp_all

/-- Witness for C7's amended statement at concrete descriptors. -/
theorem C7_beside_floor_witness :
    Interpreter.checkPhysics "a" ⟨"ball", "small", "red"⟩ "beside" "b" none = true ∧
    Interpreter.checkPhysics "a" ⟨"ball", "small", "red"⟩ "beside" "b"
      (some ⟨"floor", "large", "grey"⟩) = false :=
  ⟨(C7_beside_floor "a" ⟨"ball", "small", "red"⟩ "b" ⟨"floor", "large", "grey"⟩).1
      (by decide),
   (C7_beside_floor "a" ⟨"ball", "small", "red"⟩ "b" ⟨"floor", "large", "grey"⟩).2 rfl⟩

/-! ## Claim C4 -/

/-- C4: entity grouping by quantifier — `"the"` with more than one match
throws the ambiguity error and with exactly one match yields one singleton
group; `"any"` yields one singleton group per match; `"all"` yields a
single group with every match; an unrecognised quantifier throws. -/
theorem C4_checkQuantifier_spec (q : String) (entities : List ObjectRef) :
    (1 < entities.length →
      Interpreter.checkQuantifier "the" entities = .error "\"the\" is ambigous") ∧
    (∀ e, entities = [e] → Interpreter.checkQuantifier "the" entities = .ok [[e]]) ∧
    (Interpreter.checkQuantifier "any" entities = .ok (entities.map (fun x => [x]))) ∧
    (Interpreter.checkQuantifier "all" entities = .ok [entities]) ∧
    (q ≠ "the" → q ≠ "any" → q ≠ "all" →
      Interpreter.checkQuantifier q entities =
        .error ("unknown quantifier \"" ++ q ++ "\"")) := by
  refine ⟨fun hlen => ?_, fun e he => ?_, ?_, ?_, fun h1 h2 h3 => ?_⟩
  · simp [Interpreter.checkQuantifier, hlen]
  · subst he; simp [Interpreter.checkQuantifier]
  · simp [Interpreter.checkQuantifier]
  · simp [Interpreter.checkQuantifier]
  · simp [Interpreter.checkQuantifier, h1, h2, h3]

/-- Witness for C4 at concrete entity lists and an unknown quantifier. -/
theorem C4_checkQuantifier_spec_witness :
    Interpreter.checkQuantifier "the" [⟨"a", some 0, some 0⟩, ⟨"b", some 1, some 0⟩] =
      .error "\"the\" is ambigous" ∧
    Interpreter.checkQuantifier "the" [(⟨"a", some 0, some 0⟩ : ObjectRef)] =
      .ok [[⟨"a", some 0, some 0⟩]] ∧
    Interpreter.checkQuantifier "any" [⟨"a", some 0, some 0⟩, ⟨"b", some 1, some 0⟩] =
      .ok [[⟨"a", some 0, some 0⟩], [⟨"b", some 1, some 0⟩]] ∧
    Interpreter.checkQuantifier "all" [⟨"a", some 0, some 0⟩, ⟨"b", some 1, some 0⟩] =
      .ok [[⟨"a", some 0, some 0⟩, ⟨"b", some 1, some 0⟩]] ∧
    Interpreter.checkQuantifier "both" [(⟨"a", some 0, some 0⟩ : ObjectRef)] =
      .error "unknown quantifier \"both\"" := by
  refine ⟨(C4_checkQuantifier_spec "both" _).1 (by decide),
    (C4_checkQuantifier_spec "both" _).2.1 _ rfl,
    (C4_checkQuantifier_spec "both" _).2.2.1,
    (C4_checkQuantifier_spec "both" _).2.2.2.1,
    (C4_checkQuantifier_spec "both" _).2.2.2.2 (by decide) (by decide) (by decide)⟩

/-! ## Claim C5 -/

/-- C5 counterexample: two planning nodes with identical stacks, holding
and arm but different `action` labels serialise to different dictionary
keys, so the cost map does *not* treat them as the same key — node
equality is not based on exactly (stacks, holding, arm). -/
theorem C5_counterexample :
    (PNode.mk [["a"]] none 0 none).stacks = (PNode.mk [["a"]] none 0 (some "l")).stacks ∧
    (PNode.mk [["a"]] none 0 none).holding = (PNode.mk [["a"]] none 0 (some "l")).holding ∧
    (PNode.mk [["a"]] none 0 none).arm = (PNode.mk [["a"]] none 0 (some "l")).arm ∧
    pnodeDictGet (pnodeDictSet [] (PNode.mk [["a"]] none 0 none) (0 : Int))
      (PNode.mk [["a"]] none 0 (some "l")) = none := by
  exact ⟨rfl, rfl, rfl, by decide⟩

/-- C5 amended: the dictionary key is value-based on the *serialised node
content* — stacks, holding, arm, *and* the action label: any two nodes
agreeing on those four fields are treated as the same cost-map key however
they were constructed (nodes differing only in the action label are not,
per the counterexample). -/
theorem C5_key_value_based (n1 n2 : PNode) (hs : n1.stacks = n2.stacks)
    (hh : n1.holding = n2.holding) (ha : n1.arm = n2.arm)
    (hact : n1.action = n2.action) {α : Type} (d : List (String × α)) (v : α) :
    pnodeDictGet (pnodeDictSet d n1 v) n2 = some v := by
  obtain ⟨s1, h1, a1, c1⟩ := n1
  obtain ⟨s2, h2, a2, c2⟩ := n2
  cases hs; cases hh; cases ha; cases hact
  simp [pnodeDictGet, pnodeDictSet, getValue]

/-- Witness for C5's amended statement: a concrete relaxation-style lookup
across two equal-content nodes. -/
theorem C5_key_value_based_witness :
    pnodeDictGet (pnodeDictSet [("x", (3 : Int))] (PNode.mk [["a"], []] (some "b") 1 (some "l"))
      (7 : Int)) (PNode.mk [["a"], []] (some "b") 1 (some "l")) = some 7 :=
  C5_key_value_based _ _ rfl rfl rfl rfl _ _

/-! ## Claim C1: counterexample -/

/-- The graph of the C1 counterexample: JavaScript edge costs are
arbitrary numbers, and a negative cycle through the start drives the
start's recorded cost below zero. -/
def cexGraph : Graph Nat :=
  ⟨fun n =>
    if n = 0 then [⟨0, 1, -2⟩, ⟨0, 2, 4⟩]
    else if n = 1 then [⟨1, 2, 7⟩, ⟨1, 0, -1⟩]
    else if n = 2 then [⟨2, 0, 5⟩]
    else [], fun _ _ => 0⟩

/-- The heuristic of the C1 counterexample. -/
def cexHeur : Nat → Int :=
  fun n => if n = 0 then 6 else if n = 1 then 18 else 12

/-- C1 counterexample: on `cexGraph` the search returns the path `[2]` —
whose only traversed edge, `0 → 2`, costs `4` — but reports cost `1`
(the start node's recorded cost was relaxed to `-3` through the negative
cycle `0 → 1 → 0` after `2`'s cost was recorded), so the reported cost is
not the sum of the traversed edges' costs. -/
theorem C1_counterexample :
    aStarSearch cexGraph 0 (fun n => n == 2) cexHeur 5 20 =
      some (some ⟨[2], 1⟩) ∧
    (∀ e ∈ cexGraph.outgoingEdges 0, e.eto = 2 → e.cost = 4) ∧
    (1 : Int) ≠ 4 :=
  ⟨by decide, by decide, by decide⟩

/-! ## Claim C3 -/

/-- The current column of the arm. -/
def armColumn (node : PNode) : List String := node.stacks.getD node.arm []

/-- The physics condition the source evaluates for a drop onto a
non-empty column: the held object against the column top, with relation
`"inside"` when the top is a box and `"ontop"` otherwise. -/
def dropPhysicsOk (objects : String → ObjectDefinition) (node : PNode) (src : String) : Bool :=
  let dstId := (armColumn node).getLast?.getD ""
  let dstObj := objects dstId
  Interpreter.checkPhysics src (objects src)
    (if dstObj.form = "box" then "inside" else "ontop") dstId (some dstObj)

/-- Membership in `if c then L else []`. -/
theorem mem_ite_nil {α : Type} {c : Prop} [Decidable c] {L : List α} {e : α} :
    (e ∈ if c then L else []) ↔ c ∧ e ∈ L := by
  split <;> simp [*]

/-- The four candidate edges of `PGraph.outgoingEdges` when the arm holds
`src`: move left, move right (the pick branch is closed), and the guarded
drop. -/
theorem outgoingEdges_holding_mem (objects : String → ObjectDefinition) (node : PNode)
    (src : String) (hhold : node.holding = some src) (e : Edge PNode) :
    e ∈ PGraph.outgoingEdges objects node ↔
      (0 < node.arm ∧ e = ⟨node, ⟨node.stacks, some src, node.arm - 1, some "l"⟩, 1⟩) ∨
      (node.arm < node.stacks.length - 1 ∧
        e = ⟨node, ⟨node.stacks, some src, node.arm + 1, some "r"⟩, 1⟩) ∨
      ((armColumn node).length < node.stacks.length ∧
        (armColumn node = [] ∨ dropPhysicsOk objects node src = true) ∧
        e = ⟨node, ⟨node.stacks.set node.arm (armColumn node ++ [src]), none, node.arm,
          some "d"⟩, 1⟩) := by
  simp only [PGraph.outgoingEdges, hhold, armColumn, dropPhysicsOk, List.mem_append,
    mem_ite_nil, List.mem_singleton]
  simp
  exact or_assoc

/-- C3: when the arm holds an object, a drop edge (of cost 1) is offered
iff the destination column has room (its height is below the number of
columns) and — when the column is non-empty — the physics validator
approves placing the held object's descriptor on the column top's
descriptor, with relation `"inside"` when the top is a box and `"ontop"`
otherwise; an empty column needs no physics check. -/
theorem C3_drop_edge (objects : String → ObjectDefinition) (node : PNode) (src : String)
    (hhold : node.holding = some src) :
    ((∃ e ∈ PGraph.outgoingEdges objects node, e.eto.action = some "d") ↔
      ((armColumn node).length < node.stacks.length ∧
        (armColumn node ≠ [] → dropPhysicsOk objects node src = true))) ∧
    (∀ e ∈ PGraph.outgoingEdges objects node, e.eto.action = some "d" → e.cost = 1) := by
  constructor
  · constructor
    · rintro ⟨e, he, hact⟩
      rw [outgoingEdges_holding_mem objects node src hhold] at he
      rcases he with ⟨_, rfl⟩ | ⟨_, rfl⟩ | ⟨hroom, hphys, rfl⟩
      · simp at hact
      · simp at hact
      · refine ⟨hroom, fun hne => ?_⟩
        rcases hphys with hemp | hok
        · exact absurd hemp hne
        · exact hok
    · rintro ⟨hroom, himp⟩
      refine ⟨⟨node, ⟨node.stacks.set node.arm (armColumn node ++ [src]), none, node.arm,
        some "d"⟩, 1⟩, ?_, rfl⟩
      rw [outgoingEdges_holding_mem objects node src hhold]
      refine Or.inr (Or.inr ⟨hroom, ?_, rfl⟩)
      by_cases hne : armColumn node = []
      · exact Or.inl hne
      · exact Or.inr (himp hne)
  · intro e he hact
    rw [outgoingEdges_holding_mem objects node src hhold] at he
    rcases he with ⟨_, rfl⟩ | ⟨_, rfl⟩ | ⟨_, _, rfl⟩ <;> rfl

/-- The objects of the C3 witness world. -/
def c3World : String → ObjectDefinition := fun s =>
  if s = "a" then ⟨"ball", "small", "red"⟩
  else if s = "b" then ⟨"box", "large", "blue"⟩
  else ⟨"table", "large", "green"⟩

/-- Witness for C3: holding a small ball over a column topped by a large
box, the drop edge is offered. -/
theorem C3_drop_edge_witness :
    ∃ e ∈ PGraph.outgoingEdges c3World (PNode.mk [["b"], []] (some "a") 0 none),
      e.eto.action = some "d" :=
  (C3_drop_edge c3World (PNode.mk [["b"], []] (some "a") 0 none) "a" rfl).1.mpr
    (by decide)

/-! ## Claim C2 -/

/-- Following the specification's wording, one literal's truth at a state:
`holding` compares the held identifier; a positional literal is false when
either argument is held; otherwise columns and heights are compared per
relation, with the floor cases for `ontop` (height exactly 0) and `above`
(vacuously true). -/
def specLitHolds (n : PNode) (lit : Literal) : Bool :=
  let a0 := lit.args[0]?.getD ""
  let a1 := lit.args[1]?.getD ""
  if lit.relation = "holding" then n.holding = some a0
  else if n.holding = some a0 ∨ n.holding = some a1 then false
  else
    match findIndexAux a0 n.stacks with
    | none => false
    | some c1 =>
      if a1 = "floor" then
        if lit.relation = "ontop" then c1.y = 0
        else if lit.relation = "above" then true
        else false
      else
        match findIndexAux a1 n.stacks with
        | none => false
        | some c2 =>
          if lit.relation = "leftof" then c1.x < c2.x
          else if lit.relation = "rightof" then c2.x < c1.x
          else if lit.relation = "above" then c1.x = c2.x ∧ c2.y < c1.y
          else if lit.relation = "under" then c1.x = c2.x ∧ c1.y < c2.y
          else if lit.relation = "beside" then absDiff c1.x c2.x = 1
          else if lit.relation = "ontop" ∨ lit.relation = "inside" then
            c1.x = c2.x ∧ c1.y = c2.y + 1
          else false

/-- The domain on which claim C2 describes one literal: a `holding`
literal, or one of the seven positional relations whose arguments (when
not held) have positions in the stacks, the floor sentinel appearing only
as second argument of `ontop` or `above`. -/
def C2Hyp (n : PNode) (lit : Literal) : Prop :=
  lit.relation = "holding" ∨
  (lit.relation ∈ (["leftof", "rightof", "above", "under", "beside", "ontop",
      "inside"] : List String) ∧
    (¬(n.holding = some (lit.args[0]?.getD "") ∨ n.holding = some (lit.args[1]?.getD "")) →
      (findIndexAux (lit.args[0]?.getD "") n.stacks).isSome ∧
      (lit.args[1]?.getD "" = "floor" ∨
        (findIndexAux (lit.args[1]?.getD "") n.stacks).isSome)) ∧
    (lit.args[1]?.getD "" = "floor" → lit.relation = "ontop" ∨ lit.relation = "above"))

/-- Binding a successful `Except` computation. -/
theorem okBind {ε α β : Type} (a : α) (f : α → Except ε β) :
    (Except.ok a : Except ε α) >>= f = f a := rfl

/-- On its claimed domain, the source's literal evaluation agrees with the
specification's description and never throws. -/
theorem goalLit_eq_spec (n : PNode) (lit : Literal) (h : C2Hyp n lit) :
    goalLit n lit = .ok (specLitHolds n lit) := by
  rcases h with hrel | ⟨hrel, hpos, hfloor⟩
  · simp [goalLit, specLitHolds, hrel]
  · simp only [List.mem_cons, List.not_mem_nil, or_false] at hrel
    have hnh : lit.relation ≠ "holding" := by
      rcases hrel with h | h | h | h | h | h | h <;> simp [h]
    by_cases hheld : n.holding = some (lit.args[0]?.getD "") ∨
        n.holding = some (lit.args[1]?.getD "")
    · rcases hheld with hh | hh <;> simp [goalLit, specLitHolds, hnh, hh]
    · obtain ⟨h0, h1⟩ := hpos hheld
      obtain ⟨c1, hc1⟩ := Option.isSome_iff_exists.mp h0
      push_neg at hheld
      obtain ⟨hh0, hh1⟩ := hheld
      by_cases hfl : lit.args[1]?.getD "" = "floor"
      · rw [hfl] at hh1
        rcases hfloor hfl with ho | ho <;>
          simp [goalLit, specLitHolds, hnh, hh0, hh1, hfl, findIndex, hc1, ho, okBind]
      · obtain ⟨c2, hc2⟩ := Option.isSome_iff_exists.mp (h1.resolve_left hfl)
        have hy : (c1.y - c2.y = 1) = (c1.y = c2.y + 1) := propext (by omega)
        rcases hrel with h | h | h | h | h | h | h <;>
          simp [goalLit, specLitHolds, hnh, hh0, hh1, hfl, findIndex, hc1, hc2, h, hy, okBind]

/-- On its claimed domain, the conjunction loop agrees with `List.all`. -/
theorem goalConj_eq_spec (n : PNode) (conj : List Literal)
    (h : ∀ lit ∈ conj, C2Hyp n lit) :
    goalConj n conj = .ok (conj.all (specLitHolds n)) := by
  induction conj with
  | nil => rfl
  | cons c rest ih =>
    have hc := goalLit_eq_spec n c (h c (List.mem_cons_self c rest))
    have hr := ih (fun l hl => h l (List.mem_cons_of_mem c hl))
    by_cases hs : specLitHolds n c <;>
      simp [goalConj, hc, hr, hs, List.all_cons, okBind]

/-- C2: on formulas within the claim's domain, the goal test never throws
and returns `true` exactly when some conjunction's every literal holds in
the sense of the specification's per-relation description. -/
theorem C2_goal_test (f : List (List Literal)) (n : PNode)
    (H : ∀ conj ∈ f, ∀ lit ∈ conj, C2Hyp n lit) :
    goal f n = .ok (f.any fun conj => conj.all (specLitHolds n)) := by
  induction f with
  | nil => rfl
  | cons conj rest ih =>
    have hc := goalConj_eq_spec n conj (H conj (List.mem_cons_self conj rest))
    have hr := ih (fun cj hcj l hl => H cj (List.mem_cons_of_mem conj hcj) l hl)
    by_cases hs : conj.all (specLitHolds n) <;>
      simp [goal, hc, hr, hs, List.any_cons, okBind]

/-- Witness for C2: a two-disjunct formula over a concrete snapshot. -/
theorem C2_goal_test_witness :
    goal [[Literal.mk true "ontop" ["b", "c"], Literal.mk true "leftof" ["a", "b"]],
        [Literal.mk true "holding" ["c"]]]
      (PNode.mk [["a"], ["c", "b"]] none 1 none) =
      .ok true := by
  have h := C2_goal_test
    [[Literal.mk true "ontop" ["b", "c"], Literal.mk true "leftof" ["a", "b"]],
        [Literal.mk true "holding" ["c"]]]
    (PNode.mk [["a"], ["c", "b"]] none 1 none)
    (by
      intro conj hconj l hl
      simp only [List.mem_cons, List.not_mem_nil, or_false] at hconj
      rcases hconj with rfl | rfl <;>
        simp only [List.mem_cons, List.not_mem_nil, or_false] at hl
      · rcases hl with rfl | rfl
        · exact Or.inr (by constructor <;> decide)
        · exact Or.inr (by constructor <;> decide)
      · rcases hl with rfl
        exact Or.inl rfl)
  rw [h]
  rfl

/-! ## Claim C6 -/

/-- Following the specification's wording, the hand-crafted per-literal
cost estimate: a case analysis on whether the literal's first argument is
held, its second argument is held, or neither, summing arm travel
(column distance) and unit costs for the forced pick/drop actions. -/
def specLitCost (node : PNode) (lit : Literal) : Nat :=
  let a0 := lit.args[0]?.getD ""
  let a1 := lit.args[1]?.getD ""
  let colOf := fun (o : String) => ((findIndexAux o node.stacks).getD ⟨0, 0⟩).x
  if lit.relation = "holding" then
    if node.holding = some a0 then 0
    else (if node.holding ≠ none then 1 else 0) + absDiff node.arm (colOf a0) + 1
  else if node.holding = some a0 then
    if a1 = "floor" then 1
    else absDiff (colOf a1) node.arm + (if lit.relation = "beside" then 1 else 0) + 1
  else if node.holding = some a1 then
    1 + absDiff node.arm (colOf a0) + 1 + absDiff node.arm (colOf a0) + 1
  else if a1 = "floor" then
    (if node.holding ≠ none then 1 else 0) + absDiff node.arm (colOf a0) + 1 + 1 + 1
  else
    (if node.holding ≠ none then 1 else 0) + absDiff node.arm (colOf a0) + 1 +
      absDiff (colOf a1) (colOf a0) + (if lit.relation = "beside" then 1 else 0) + 1

/-- The domain on which claim C6 describes one literal: every `findIndex`
call the per-literal estimate performs must succeed. -/
def C6Hyp (node : PNode) (lit : Literal) : Prop :=
  (lit.relation = "holding" →
    node.holding = some (lit.args[0]?.getD "") ∨
      (findIndexAux (lit.args[0]?.getD "") node.stacks).isSome) ∧
  (lit.relation ≠ "holding" →
    (node.holding = some (lit.args[0]?.getD "") →
      lit.args[1]?.getD "" = "floor" ∨
        (findIndexAux (lit.args[1]?.getD "") node.stacks).isSome) ∧
    (node.holding ≠ some (lit.args[0]?.getD "") →
      (findIndexAux (lit.args[0]?.getD "") node.stacks).isSome ∧
      (node.holding = some (lit.args[1]?.getD "") ∨ lit.args[1]?.getD "" = "floor" ∨
        (findIndexAux (lit.args[1]?.getD "") node.stacks).isSome)))

/-- On its claimed domain, the source's per-literal estimate agrees with
the specification's case analysis and never throws. -/
theorem heuristicsLit_eq_spec (node : PNode) (lit : Literal) (h : C6Hyp node lit) :
    heuristicsLit node lit = .ok (specLitCost node lit) := by
  obtain ⟨hhold, hpos⟩ := h
  by_cases hrel : lit.relation = "holding"
  · by_cases hh : node.holding = some (lit.args[0]?.getD "")
    · simp [heuristicsLit, specLitCost, hrel, hh]
    · obtain ⟨c, hc⟩ := Option.isSome_iff_exists.mp ((hhold hrel).resolve_left hh)
      simp [heuristicsLit, specLitCost, hrel, hh, findIndex, hc, okBind]
  · obtain ⟨hfst, hsnd⟩ := hpos hrel
    by_cases hh0 : node.holding = some (lit.args[0]?.getD "")
    · by_cases hfl : lit.args[1]?.getD "" = "floor"
      · simp [heuristicsLit, specLitCost, hrel, hh0, hfl]
      · obtain ⟨c, hc⟩ := Option.isSome_iff_exists.mp ((hfst hh0).resolve_left hfl)
        simp [heuristicsLit, specLitCost, hrel, hh0, hfl, findIndex, hc, okBind]
    · obtain ⟨hsome0, hrest⟩ := hsnd hh0
      obtain ⟨c0, hc0⟩ := Option.isSome_iff_exists.mp hsome0
      by_cases hh1 : node.holding = some (lit.args[1]?.getD "")
      · have hne : lit.args[1]?.getD "" ≠ lit.args[0]?.getD "" :=
          fun he => hh0 (he ▸ hh1)
        simp [heuristicsLit, specLitCost, hrel, hh0, hh1, hne, findIndex, hc0, okBind]
      · by_cases hfl : lit.args[1]?.getD "" = "floor"
        · rw [hfl] at hh1
          simp [heuristicsLit, specLitCost, hrel, hh0, hh1, hfl, findIndex, hc0, okBind]
        · obtain ⟨c1, hc1⟩ := Option.isSome_iff_exists.mp
            ((hrest.resolve_left hh1).resolve_left hfl)
          simp [heuristicsLit, specLitCost, hrel, hh0, hh1, hfl, findIndex, hc0, hc1,
            okBind]

/-- On its claimed domain, the conjunction loop of the heuristic computes
the sum of the per-literal estimates. -/
theorem heuristicsConj_eq_spec (node : PNode) (conj : List Literal)
    (h : ∀ lit ∈ conj, C6Hyp node lit) :
    heuristicsConj node conj = .ok ((conj.map (specLitCost node)).sum) := by
  induction conj with
  | nil => rfl
  | cons c rest ih =>
    have hc := heuristicsLit_eq_spec node c (h c (List.mem_cons_self c rest))
    have hr := ih (fun l hl => h l (List.mem_cons_of_mem c hl))
    simp [heuristicsConj, hc, hr, okBind]

/-- On its claimed domain, the outer loop folds `min` over the conjunction
sums. -/
theorem heuristicsGo_eq_spec (node : PNode) (ors : List (List Literal))
    (h : ∀ conj ∈ ors, ∀ lit ∈ conj, C6Hyp node lit) (acc : WithTop Nat) :
    heuristicsGo node ors acc =
      .ok (ors.foldl (fun a ands => min a (((ands.map (specLitCost node)).sum : Nat) : WithTop Nat)) acc) := by
  induction ors generalizing acc with
  | nil => rfl
  | cons ands rest ih =>
    have hc := heuristicsConj_eq_spec node ands (h ands (List.mem_cons_self ands rest))
    have hr := ih (fun cj hcj l hl => h cj (List.mem_cons_of_mem ands hcj) l hl)
    simp [heuristicsGo, hc, hr, okBind]

/-- C6: on formulas within the claim's domain, the heuristic value is
exactly the minimum, over the formula's conjunctions, of the sum over the
conjunction's literals of the per-literal cost estimate. -/
theorem C6_heuristics (ors : List (List Literal)) (node : PNode)
    (H : ∀ conj ∈ ors, ∀ lit ∈ conj, C6Hyp node lit) :
    heuristics ors node =
      .ok ((ors.map fun ands => (((ands.map (specLitCost node)).sum : Nat) : WithTop Nat)).foldl
        min ⊤) := by
  rw [heuristics, heuristicsGo_eq_spec node ors H ⊤, List.foldl_map]

/-- Witness for C6 at a concrete two-disjunct formula and state. -/
theorem C6_heuristics_witness :
    heuristics [[Literal.mk true "ontop" ["a", "c"]], [Literal.mk true "holding" ["b"]]]
      (PNode.mk [["a"], ["c", "b"]] none 0 none) = .ok 2 := by
  have h := C6_heuristics
    [[Literal.mk true "ontop" ["a", "c"]], [Literal.mk true "holding" ["b"]]]
    (PNode.mk [["a"], ["c", "b"]] none 0 none)
    (by
      intro conj hconj l hl
      simp only [List.mem_cons, List.not_mem_nil, or_false] at hconj
      rcases hconj with rfl | rfl <;>
        simp only [List.mem_cons, List.not_mem_nil, or_false] at hl <;>
        rcases hl with rfl <;> constructor <;> intro h1 <;> first
          | exact absurd h1 (by decide)
          | refine ⟨by decide, by decide⟩
          | exact Or.inr (by decide))
  rw [h]
  congr 1

/-! ## Claim C8 -/

/-- The exclusivity invariant on planning states: every identifier appears
in at most one stack position, and a held identifier appears in no stack.
-/
def StateInv (n : PNode) : Prop :=
  n.stacks.flatten.Nodup ∧ ∀ x, n.holding = some x → x ∉ n.stacks.flatten

/-- Decomposition of the joined stacks around column `i`, before and after
replacing that column. -/
theorem join_set_decomp {α : Type} :
    ∀ (s : List (List α)) (i : Nat), i < s.length → ∀ x : List α,
      (s.set i x).flatten = (s.take i).flatten ++ x ++ (s.drop (i + 1)).flatten ∧
      s.flatten = (s.take i).flatten ++ s.getD i [] ++ (s.drop (i + 1)).flatten := by
  intro s
  induction s with
  | nil => intro i hi; simp at hi
  | cons hd tl ih =>
    intro i hi x
    cases i with
    | zero => simp
    | succ j =>
      have hj : j < tl.length := by simpa using hi
      obtain ⟨ha, hb⟩ := ih j hj x
      constructor
      · simp [ha, List.append_assoc]
      · simp only [List.flatten_cons, List.take_succ_cons, List.drop_succ_cons,
          List.getD_cons_succ, hb]
        simp [List.append_assoc]

/-- Pulling a trailing element out of the middle section of a triple
append, up to permutation. -/
theorem perm_pull_singleton {α : Type} (A c B : List α) (t : α) :
    (A ++ (c ++ [t]) ++ B).Perm ((A ++ c ++ B) ++ [t]) := by
  have h1 : A ++ (c ++ [t]) ++ B = A ++ (c ++ ([t] ++ B)) := by
    simp [List.append_assoc]
  have h2 : A ++ (c ++ (B ++ [t])) = (A ++ c ++ B) ++ [t] := by
    simp [List.append_assoc]
  rw [h1, ← h2]
  exact List.Perm.append_left A (List.Perm.append_left c List.perm_append_comm)

/-- Removing the top of the middle column keeps the join duplicate-free,
and the removed element is no longer present. -/
theorem nodup_extract_end {α : Type} (A c B : List α) (t : α)
    (h : (A ++ (c ++ [t]) ++ B).Nodup) :
    (A ++ c ++ B).Nodup ∧ t ∉ A ++ c ++ B := by
  have hp := (perm_pull_singleton A c B t).nodup_iff.mp h
  obtain ⟨h1, _, hd⟩ := List.nodup_append.mp hp
  exact ⟨h1, fun hmem => hd hmem (List.mem_singleton_self t)⟩

/-- Appending a fresh element on top of the middle column keeps the join
duplicate-free. -/
theorem nodup_insert_end {α : Type} (A c B : List α) (t : α)
    (h : (A ++ c ++ B).Nodup) (ht : t ∉ A ++ c ++ B) :
    (A ++ (c ++ [t]) ++ B).Nodup := by
  refine (perm_pull_singleton A c B t).nodup_iff.mpr ?_
  refine List.nodup_append.mpr ⟨h, List.nodup_singleton t, ?_⟩
  intro a ha hat
  rw [List.mem_singleton] at hat
  subst hat
  exact ht ha

/-- The three candidate edges of `PGraph.outgoingEdges` when the arm holds
nothing: move left, move right, and the guarded pick (the drop branch is
closed). -/
theorem outgoingEdges_free_mem (objects : String → ObjectDefinition) (node : PNode)
    (hhold : node.holding = none) (e : Edge PNode) :
    e ∈ PGraph.outgoingEdges objects node ↔
      (0 < node.arm ∧ e = ⟨node, ⟨node.stacks, none, node.arm - 1, some "l"⟩, 1⟩) ∨
      (node.arm < node.stacks.length - 1 ∧
        e = ⟨node, ⟨node.stacks, none, node.arm + 1, some "r"⟩, 1⟩) ∨
      (armColumn node ≠ [] ∧
        e = ⟨node, ⟨node.stacks.set node.arm (armColumn node).dropLast,
          (armColumn node).getLast?, node.arm, some "p"⟩, 1⟩) := by
  simp only [PGraph.outgoingEdges, hhold, armColumn, List.mem_append, mem_ite_nil,
    List.mem_singleton]
  simp
  exact or_assoc

/-- C8: every edge generated from a state satisfying the exclusivity
invariant leads to a state satisfying it: the pick edge removes the top of
the current column before recording it as held; the drop edge appends the
held object before clearing `holding`; the moves leave both untouched. -/
theorem C8_edge_invariant (objects : String → ObjectDefinition) (node : PNode)
    (hInv : StateInv node) (hArm : node.arm < node.stacks.length) :
    ∀ e ∈ PGraph.outgoingEdges objects node, StateInv e.eto := by
  intro e he
  cases hh : node.holding with
  | none =>
    rw [outgoingEdges_free_mem objects node hh] at he
    rcases he with ⟨_, rfl⟩ | ⟨_, rfl⟩ | ⟨hne, rfl⟩
    · exact ⟨hInv.1, fun x hx => Option.noConfusion hx⟩
    · exact ⟨hInv.1, fun x hx => Option.noConfusion hx⟩
    · obtain ⟨t, ht⟩ := Option.isSome_iff_exists.mp (List.getLast?_isSome.mpr hne)
      have hcol : (armColumn node).dropLast ++ [t] = armColumn node :=
        List.dropLast_append_getLast? t ht
      have h1 := (join_set_decomp node.stacks node.arm hArm
        ((armColumn node).dropLast)).1
      have h2 := (join_set_decomp node.stacks node.arm hArm []).2
      have h2' : node.stacks.flatten = (node.stacks.take node.arm).flatten ++
          ((armColumn node).dropLast ++ [t]) ++
          (node.stacks.drop (node.arm + 1)).flatten := by
        rw [hcol]; exact h2
      have hnd := hInv.1
      rw [h2'] at hnd
      have hsplit := nodup_extract_end _ _ _ _ hnd
      constructor
      · show (node.stacks.set node.arm (armColumn node).dropLast).flatten.Nodup
        rw [h1]; exact hsplit.1
      · intro x hx
        have hx' : t = x := by
          have : (armColumn node).getLast? = some x := hx
          rw [ht] at this; exact Option.some.inj this
        subst hx'
        show t ∉ (node.stacks.set node.arm (armColumn node).dropLast).flatten
        rw [h1]; exact hsplit.2
  | some src =>
    rw [outgoingEdges_holding_mem objects node src hh] at he
    rcases he with ⟨_, rfl⟩ | ⟨_, rfl⟩ | ⟨hroom, hphys, rfl⟩
    · exact ⟨hInv.1, fun x hx => by
        cases Option.some.inj hx; exact hInv.2 _ hh⟩
    · exact ⟨hInv.1, fun x hx => by
        cases Option.some.inj hx; exact hInv.2 _ hh⟩
    · have h1 := (join_set_decomp node.stacks node.arm hArm
        (armColumn node ++ [src])).1
      have h2 := (join_set_decomp node.stacks node.arm hArm []).2
      have hnd := hInv.1
      have hsrc := hInv.2 src hh
      rw [h2] at hnd hsrc
      constructor
      · show (node.stacks.set node.arm (armColumn node ++ [src])).flatten.Nodup
        rw [h1]; exact nodup_insert_end _ _ _ _ hnd hsrc
      · intro x hx; exact Option.noConfusion hx

/-- Witness for C8: the state reached by dropping the held ball into the
box column satisfies the invariant. -/
theorem C8_edge_invariant_witness :
    StateInv (PNode.mk [["b", "a"], []] none 0 (some "d")) :=
  C8_edge_invariant c3World (PNode.mk [["b"], []] (some "a") 0 none)
    ⟨by decide, fun x hx => by cases Option.some.inj hx; decide⟩ (by decide)
    (Edge.mk (PNode.mk [["b"], []] (some "a") 0 none)
      (PNode.mk [["b", "a"], []] none 0 (some "d")) 1) (by decide)

/-! ## Claim C9 -/

/-- The collected successes of the driver loop are the successful results
in input order. -/
theorem interpretAux_fst {α β ε : Type} (f : α → Except ε β) (xs : List α) :
    (Interpreter.interpretAux f xs).1 = xs.filterMap (fun x => (f x).toOption) := by
  induction xs with
  | nil => rfl
  | cons x rest ih =>
    simp only [Interpreter.interpretAux, List.filterMap_cons]
    cases hfx : f x <;> simp [ih, Except.toOption, hfx]

/-- The collected errors of the driver loop are the failures in input
order. -/
theorem interpretAux_snd {α β ε : Type} (f : α → Except ε β) (xs : List α) :
    (Interpreter.interpretAux f xs).2 =
      xs.filterMap (fun x => match f x with | .ok _ => none | .error e => some e) := by
  induction xs with
  | nil => rfl
  | cons x rest ih =>
    simp only [Interpreter.interpretAux, List.filterMap_cons]
    cases hfx : f x <;> simp [ih, hfx]

/-- C9: the driver pattern shared by `Interpreter.interpret` and
`Planner.plan` isolates per-candidate failures: a failing candidate does
not abort the others; with at least one success, exactly the successful
results are returned (the planner replacing empty plans by the notice);
the call raises iff every candidate fails, and then it raises exactly the
first error in input order. -/
theorem C9_driver_isolation {α β ε : Type} (f : α → Except ε β)
    (g : α → Except ε (List String)) (xs : List α) :
    ((∃ x ∈ xs, (f x).isOk) →
      Interpreter.interpret f xs = .ok (xs.filterMap (fun x => (f x).toOption))) ∧
    (¬(Interpreter.interpret f xs).isOk ↔ ∀ x ∈ xs, ¬(f x).isOk) ∧
    (∀ x₀ xs' e, xs = x₀ :: xs' → (∀ x ∈ xs, ¬(f x).isOk) → f x₀ = .error e →
      Interpreter.interpret f xs = .error (some e)) ∧
    ((∃ x ∈ xs, (g x).isOk) →
      Planner.plan g xs = .ok (xs.filterMap (fun x =>
        ((g x).map (fun p => if p.length = 0 then ["That is already true!"] else p)).toOption))) ∧
    (∀ x₀ xs' e, xs = x₀ :: xs' → (∀ x ∈ xs, ¬(g x).isOk) → g x₀ = .error e →
      Planner.plan g xs = .error (some e)) := by
  have hkey : ∀ {β' : Type} (f' : α → Except ε β') (x : α), (f' x).isOk ↔
      (f' x).toOption.isSome := by
    intro β' f' x
    cases hfx : f' x <;> simp [Except.isOk, Except.toBool, Except.toOption, hfx]
  have hok : ∀ {β' : Type} (f' : α → Except ε β'),
      (∃ x ∈ xs, (f' x).isOk) →
      (Interpreter.interpretAux f' xs).1.length ≠ 0 := by
    intro β' f' ⟨x, hx, hisok⟩
    rw [interpretAux_fst]
    intro hlen
    rw [List.length_eq_zero, List.filterMap_eq_nil_iff] at hlen
    have := hlen x hx
    rw [hkey f' x] at hisok
    simp [this] at hisok
  have hfail : ∀ {β' : Type} (f' : α → Except ε β'),
      (∀ x ∈ xs, ¬(f' x).isOk) → (Interpreter.interpretAux f' xs).1.length = 0 := by
    intro β' f' hall
    rw [interpretAux_fst, List.length_eq_zero, List.filterMap_eq_nil_iff]
    intro x hx
    have := hall x hx
    rw [hkey f' x] at this
    simpa using this
  have interpret_def : ∀ {β' : Type} (f' : α → Except ε β'),
      Interpreter.interpret f' xs =
        if (Interpreter.interpretAux f' xs).1.length ≠ 0
        then .ok (Interpreter.interpretAux f' xs).1
        else .error (Interpreter.interpretAux f' xs).2.head? := fun _ => rfl
  have plan_def : Planner.plan g xs =
      if (Interpreter.interpretAux (fun x => (g x).map
          (fun p => if p.length = 0 then ["That is already true!"] else p)) xs).1.length ≠ 0
      then .ok (Interpreter.interpretAux (fun x => (g x).map
          (fun p => if p.length = 0 then ["That is already true!"] else p)) xs).1
      else .error (Interpreter.interpretAux (fun x => (g x).map
          (fun p => if p.length = 0 then ["That is already true!"] else p)) xs).2.head? := rfl
  refine ⟨fun hex => ?_, ⟨fun hnotok x hx hisok => ?_, fun hall => ?_⟩,
    fun x₀ xs' e hxs hall he => ?_, fun hex => ?_, fun x₀ xs' e hxs hall he => ?_⟩
  · rw [interpret_def f, if_pos (hok f hex), interpretAux_fst]
  · apply hnotok
    rw [interpret_def f, if_pos (hok f ⟨x, hx, hisok⟩)]
    rfl
  · rw [interpret_def f, if_neg (fun hcon => hcon (hfail f hall))]
    exact Bool.false_ne_true
  · rw [interpret_def f, if_neg (fun hcon => hcon (hfail f hall)), interpretAux_snd]
    subst hxs
    simp [List.filterMap_cons, he]
  · have hex' : ∃ x ∈ xs,
        ((g x).map (fun p => if p.length = 0 then ["That is already true!"] else p)).isOk := by
      obtain ⟨x, hx, hisok⟩ := hex
      refine ⟨x, hx, ?_⟩
      cases hgx : g x
      · simp [hgx, Except.isOk, Except.toBool] at hisok
      · simp [Except.isOk, Except.toBool, Except.map, hgx]
    rw [plan_def, if_pos (hok _ hex'), interpretAux_fst]
  · have hall' : ∀ x ∈ xs,
        ¬((g x).map (fun p => if p.length = 0 then ["That is already true!"] else p)).isOk := by
      intro x hx hisok
      refine hall x hx ?_
      cases hgx : g x <;>
        simp [Except.isOk, Except.toBool, Except.map, hgx] at hisok ⊢
    rw [plan_def, if_neg (fun hcon => hcon (hfail _ hall')), interpretAux_snd]
    subst hxs
    simp [List.filterMap_cons, he, Except.map]

/-- Witness for C9: a mixed success/failure input and an all-failure
input over concrete data. -/
theorem C9_driver_isolation_witness :
    Interpreter.interpret
      (fun n : Nat => if n % 2 = 0 then Except.ok n else Except.error ("odd " ++ Nat.repr n))
      [1, 2, 3, 4] = .ok [2, 4] ∧
    Interpreter.interpret
      (fun n : Nat => (Except.error ("e" ++ Nat.repr n) : Except String Nat))
      [1, 2, 3] = .error (some "e1") := by
  constructor
  · have h := (C9_driver_isolation
      (fun n : Nat => if n % 2 = 0 then Except.ok n else Except.error ("odd " ++ Nat.repr n))
      (fun _ : Nat => (Except.ok [] : Except String (List String))) [1, 2, 3, 4]).1
      ⟨2, by decide, by decide⟩
    rw [h]; rfl
  · exact (C9_driver_isolation
      (fun n : Nat => (Except.error ("e" ++ Nat.repr n) : Except String Nat))
      (fun _ : Nat => (Except.ok [] : Except String (List String))) [1, 2, 3]).2.2.1
      1 [2, 3] "e1" rfl (by decide) rfl

/-! ## Claim C1: amended statement -/

/-- Consecutive elements of the list are linked by graph edges. -/
def EdgeChain {Node : Type} (graph : Graph Node) : List Node → Prop
  | [] => True
  | [_] => True
  | a :: b :: rest => (∃ e ∈ graph.outgoingEdges a, e.eto = b) ∧ EdgeChain graph (b :: rest)

/-- Every recorded predecessor entry comes from a graph edge. -/
def PathsWF {Node : Type} (graph : Graph Node) (paths : List (Node × Node)) : Prop :=
  ∀ pr ∈ paths, ∃ e ∈ graph.outgoingEdges pr.2, e.eto = pr.1

/-- Lookup via `getValue` only returns stored bindings. -/
theorem getValue_mem {κ α : Type} [DecidableEq κ] :
    ∀ (d : List (κ × α)) (k : κ) (v : α), getValue d k = some v → (k, v) ∈ d := by
  intro d
  induction d with
  | nil => intro k v h; cases h
  | cons kv rest ih =>
    intro k v h
    rw [getValue] at h
    split at h
    · cases h
      rename_i heq
      subst heq
      exact List.mem_cons_self _ _
    · exact List.mem_cons_of_mem _ (ih k v h)

/-- The relaxation loop only records predecessors along edges of the
expanded node. -/
theorem relaxEdges_wf {Node : Type} [DecidableEq Node] (graph : Graph Node)
    (node : Node) (nodeCost : Int) :
    ∀ (es : List (Edge Node)) (st : List (Node × Int) × List (Node × Node) × List Node),
      (∀ e ∈ es, e ∈ graph.outgoingEdges node) → PathsWF graph st.2.1 →
      PathsWF graph (relaxEdges node nodeCost es st).2.1 := by
  intro es
  induction es with
  | nil => intro st _ hwf; exact hwf
  | cons e rest ih =>
    intro st hes hwf
    obtain ⟨costs, paths, pushed⟩ := st
    rw [relaxEdges]
    split
    · refine ih _ (fun e' he' => hes e' (List.mem_cons_of_mem e he')) ?_
      intro pr hpr
      rcases List.mem_cons.mp hpr with rfl | hpr'
      · exact ⟨e, hes e (List.mem_cons_self e rest), rfl⟩
      · exact hwf pr hpr'
    · exact ih _ (fun e' he' => hes e' (List.mem_cons_of_mem e he')) hwf

/-- When the main loop dequeues a goal node, the final predecessor map is
edge-wellformed and the dequeued node satisfies the goal test. -/
theorem aStarLoop_wf {Node : Type} [DecidableEq Node] (graph : Graph Node)
    (goalFun : Node → Bool) (heuristicsFun : Node → Int) :
    ∀ (fuel : Nat) (q : List Node) (costs : List (Node × Int))
      (paths : List (Node × Node)) (node : Node) (costs' : List (Node × Int))
      (paths' : List (Node × Node)),
      PathsWF graph paths →
      aStarLoop graph goalFun heuristicsFun fuel q costs paths =
        some (some (node, costs', paths')) →
      PathsWF graph paths' ∧ goalFun node = true := by
  intro fuel
  induction fuel with
  | zero => intro q costs paths node costs' paths' _ h; cases h
  | succ fuel ih =>
    intro q costs paths node costs' paths' hwf h
    match q with
    | [] => cases h
    | x :: xs =>
      rw [aStarLoop] at h
      cases hext : extractMin (fval costs heuristicsFun) (x :: xs) with
      | none => rw [hext] at h; cases h
      | some p =>
        obtain ⟨u, q'⟩ := p
        rw [hext] at h
        dsimp only at h
        by_cases hgoal : goalFun u
        · rw [if_pos hgoal] at h
          cases h
          exact ⟨hwf, hgoal⟩
        · rw [if_neg hgoal] at h
          exact ih _ _ _ node costs' paths'
            (relaxEdges_wf graph u _ _ _ (fun e he => he) hwf) h

/-- Extending an edge-linked chain by one more edge at its end. -/
theorem edgeChain_append_last {Node : Type} (graph : Graph Node) :
    ∀ (xs : List Node) (p b : Node), EdgeChain graph xs → xs.getLast? = some p →
      (∃ e ∈ graph.outgoingEdges p, e.eto = b) → EdgeChain graph (xs ++ [b]) := by
  intro xs
  induction xs with
  | nil => intro p b _ hlast _; cases hlast
  | cons a as ih =>
    intro p b hchain hlast hedge
    cases as with
    | nil =>
      have hp : p = a := by simpa using hlast.symm
      subst hp
      exact ⟨hedge, trivial⟩
    | cons c cs =>
      have hlast2 : (c :: cs).getLast? = some p := by
        simpa [List.getLast?_cons_cons] using hlast
      exact ⟨hchain.1, ih p b hchain.2 hlast2 hedge⟩

/-- The reconstruction loop produces the predecessor chain: a list of
nodes linked by graph edges, running from the start (exclusive) to the
queried node (inclusive, the last element of `start :: l`). -/
theorem rebuild_chain {Node : Type} [DecidableEq Node] (graph : Graph Node)
    (paths : List (Node × Node)) (start : Node) (hwf : PathsWF graph paths) :
    ∀ (fuel : Nat) (node : Node) (l : List Node),
      rebuild paths start fuel node = some l →
      EdgeChain graph (start :: l) ∧ (start :: l).getLast? = some node := by
  intro fuel
  induction fuel with
  | zero => intro node l h; cases h
  | succ fuel ih =>
    intro node l h
    rw [rebuild] at h
    by_cases hstart : node = start
    · rw [if_pos hstart] at h
      cases h
      exact ⟨trivial, by simp [hstart]⟩
    · rw [if_neg hstart] at h
      cases hget : getValue paths node with
      | none => rw [hget] at h; cases h
      | some p =>
        rw [hget] at h
        dsimp only at h
        cases hreb : rebuild paths start fuel p with
        | none => rw [hreb] at h; cases h
        | some l' =>
          rw [hreb] at h
          cases h
          obtain ⟨hchain, hlast⟩ := ih p l' hreb
          have hedge := hwf (node, p) (getValue_mem paths node p hget)
          have hassoc : start :: ((fun l => l ++ [node]) l') = (start :: l') ++ [node] := rfl
          constructor
          · rw [hassoc]
            exact edgeChain_append_last graph (start :: l') p node hchain hlast hedge
          · rw [hassoc, List.getLast?_concat]

/-- Every edge cost in the graph is nonnegative. -/
def NonnegCosts {Node : Type} (graph : Graph Node) : Prop :=
  ∀ n, ∀ e ∈ graph.outgoingEdges n, 0 ≤ e.cost

/-- The heuristic is consistent along every edge: the textbook A*
condition `h(u) ≤ cost(u,v) + h(v)`. -/
def ConsistentHeur {Node : Type} (graph : Graph Node) (heur : Node → Int) : Prop :=
  ∀ n, ∀ e ∈ graph.outgoingEdges n, heur n ≤ e.cost + heur e.eto

/-- Cost-annotated edge chain: the list is linked by graph edges starting
at the given node, and the integer is the sum of the traversed edges'
costs. -/
def ChainCost {Node : Type} (graph : Graph Node) : Node → List Node → Int → Prop
  | _, [], c => c = 0
  | a, b :: rest, c =>
    ∃ e ∈ graph.outgoingEdges a, e.eto = b ∧
      ∃ c', ChainCost graph b rest c' ∧ c = e.cost + c'

/-- Reading back the key just written. -/
theorem getValue_setValue_self {κ α : Type} [DecidableEq κ] (d : List (κ × α))
    (k : κ) (v : α) : getValue (setValue d k v) k = some v := by
  rw [setValue, getValue, if_pos rfl]

/-- Writing one key leaves the other keys' bindings unchanged. -/
theorem getValue_setValue_ne {κ α : Type} [DecidableEq κ] (d : List (κ × α))
    (k k' : κ) (v : α) (hne : k ≠ k') : getValue (setValue d k v) k' = getValue d k' := by
  rw [setValue, getValue, if_neg hne]

/-- Dequeuing from a non-empty queue always yields an element. -/
theorem extractMin_ne_none {Node : Type} (f : Node → Int) (x : Node) (xs : List Node) :
    extractMin f (x :: xs) ≠ none := by
  rw [extractMin]
  cases hxs : extractMin f xs with
  | none => simp
  | some p =>
    obtain ⟨y, ys⟩ := p
    dsimp only
    split <;> simp

/-- The dequeued element is a queue member of minimal priority, and the
remaining queue only contains former members. -/
theorem extractMin_min {Node : Type} (f : Node → Int) :
    ∀ (q : List Node) (u : Node) (q' : List Node), extractMin f q = some (u, q') →
      u ∈ q ∧ (∀ y ∈ q, f u ≤ f y) ∧ (∀ y ∈ q', y ∈ q) := by
  intro q
  induction q with
  | nil => intro u q' h; cases h
  | cons x xs ih =>
    intro u q' h
    rw [extractMin] at h
    cases hxs : extractMin f xs with
    | none =>
      rw [hxs] at h
      dsimp only at h
      cases h
      cases xs with
      | nil =>
        refine ⟨List.mem_cons_self _ _, ?_, ?_⟩
        · intro y hy
          rcases List.mem_cons.mp hy with rfl | hy'
          · exact le_refl _
          · cases hy'
        · intro y hy; cases hy
      | cons z zs => exact absurd hxs (extractMin_ne_none f z zs)
    | some p =>
      obtain ⟨y, ys⟩ := p
      rw [hxs] at h
      dsimp only at h
      obtain ⟨hy_mem, hy_min, hys_sub⟩ := ih y ys hxs
      by_cases hf : f x ≤ f y
      · rw [if_pos hf] at h
        cases h
        refine ⟨List.mem_cons_self _ _, ?_, fun z hz => List.mem_cons_of_mem _ hz⟩
        intro z hz
        rcases List.mem_cons.mp hz with rfl | hz'
        · exact le_refl _
        · exact le_trans hf (hy_min z hz')
      · rw [if_neg hf] at h
        cases h
        refine ⟨List.mem_cons_of_mem _ hy_mem, ?_, ?_⟩
        · intro z hz
          rcases List.mem_cons.mp hz with rfl | hz'
          · exact le_of_lt (lt_of_not_le hf)
          · exact hy_min z hz'
        · intro z hz
          rcases List.mem_cons.mp hz with rfl | hz'
          · exact List.mem_cons_self _ _
          · exact List.mem_cons_of_mem _ (hys_sub z hz')

/-- Invariant of the main A* loop under nonnegative edge costs and a
consistent heuristic, relative to a ghost predicate `D` marking the
expanded (closed) nodes: the start's recorded cost is `0`, all recorded
costs are nonnegative, every recorded predecessor link is tight (the
child's recorded cost is the parent's recorded cost plus the used edge's
cost), parents of links are closed, closed nodes have recorded costs and
minimal `f`-value relative to the frontier, and every queued node has a
recorded cost. -/
structure SearchInv {Node : Type} [DecidableEq Node] (graph : Graph Node)
    (heur : Node → Int) (start : Node) (D : Node → Prop) (q : List Node)
    (costs : List (Node × Int)) (paths : List (Node × Node)) : Prop where
  startCost : getValue costs start = some 0
  nonnegCost : ∀ v cv, getValue costs v = some cv → 0 ≤ cv
  tight : ∀ v p, getValue paths v = some p →
    ∃ e ∈ graph.outgoingEdges p, e.eto = v ∧ ∃ cv cp,
      getValue costs v = some cv ∧ getValue costs p = some cp ∧ cv = cp + e.cost
  closedParent : ∀ v p, getValue paths v = some p → D p
  closedCost : ∀ d, D d → (getValue costs d).isSome
  frontier : ∀ d, D d → ∀ x ∈ q, fval costs heur d ≤ fval costs heur x
  queueCost : ∀ x ∈ q, (getValue costs x).isSome

/-- The relaxation loop preserves the A* invariant once the expanded node
joins the closed set: a closed node is never relaxed (its `f`-value is at
most the expanded node's, which by consistency is at most every tentative
`f`-value), so all recorded links stay tight. -/
theorem relaxEdges_inv {Node : Type} [DecidableEq Node] (graph : Graph Node)
    (heur : Node → Int) (start : Node) (hnn : NonnegCosts graph)
    (hcons : ConsistentHeur graph heur) (D : Node → Prop) (u : Node) (cu : Int)
    (q' : List Node) :
    ∀ (es : List (Edge Node)) (costs : List (Node × Int))
      (paths : List (Node × Node)) (pushed : List Node),
      (∀ e ∈ es, e ∈ graph.outgoingEdges u) →
      getValue costs u = some cu →
      SearchInv graph heur start (fun v => D v ∨ v = u) (q' ++ pushed) costs paths →
      (∀ d, D d ∨ d = u → fval costs heur d ≤ cu + heur u) →
      SearchInv graph heur start (fun v => D v ∨ v = u)
        (q' ++ (relaxEdges u cu es (costs, paths, pushed)).2.2)
        (relaxEdges u cu es (costs, paths, pushed)).1
        (relaxEdges u cu es (costs, paths, pushed)).2.1 ∧
      getValue (relaxEdges u cu es (costs, paths, pushed)).1 u = some cu ∧
      (∀ d, D d ∨ d = u →
        fval (relaxEdges u cu es (costs, paths, pushed)).1 heur d ≤ cu + heur u) := by
  intro es
  induction es with
  | nil =>
    intro costs paths pushed _ hcu hinv hbound
    exact ⟨hinv, hcu, hbound⟩
  | cons e es ih =>
    intro costs paths pushed hes hcu hinv hbound
    have he : e ∈ graph.outgoingEdges u := hes e (List.mem_cons_self e es)
    have hco : heur u ≤ e.cost + heur e.eto := hcons u e he
    simp only [relaxEdges]
    by_cases hc : getValue costs e.eto = none ∨ cu + e.cost < (getValue costs e.eto).getD 0
    · rw [if_pos hc]
      have ht : ¬(D e.eto ∨ e.eto = u) := by
        intro hd
        have hpres := hinv.closedCost e.eto hd
        cases hget : getValue costs e.eto with
        | none => rw [hget] at hpres; simp at hpres
        | some ct =>
          have hlt : cu + e.cost < ct := by
            rcases hc with hc1 | hc2
            · rw [hget] at hc1; cases hc1
            · rw [hget] at hc2; simpa using hc2
          have hb := hbound e.eto hd
          rw [fval, hget] at hb
          simp only [Option.getD_some] at hb
          linarith
      have hut : ¬(e.eto = u) := fun heq => ht (Or.inr heq)
      have hstv : ¬(e.eto = start) := by
        intro heq
        have h0 : (0 : Int) ≤ cu := hinv.nonnegCost u cu hcu
        have h0' : (0 : Int) ≤ e.cost := hnn u e he
        rcases hc with hc1 | hc2
        · rw [heq, hinv.startCost] at hc1; cases hc1
        · rw [heq, hinv.startCost] at hc2
          simp only [Option.getD_some] at hc2
          linarith
      have hcu' : getValue (setValue costs e.eto (cu + e.cost)) u = some cu := by
        rw [getValue_setValue_ne costs e.eto u (cu + e.cost) hut]
        exact hcu
      have hfd : ∀ d, (D d ∨ d = u) →
          fval (setValue costs e.eto (cu + e.cost)) heur d = fval costs heur d := by
        intro d hd
        have hne : e.eto ≠ d := fun heq => ht (by rw [heq]; exact hd)
        rw [fval, fval, getValue_setValue_ne costs e.eto d (cu + e.cost) hne]
      have hbound' : ∀ d, D d ∨ d = u →
          fval (setValue costs e.eto (cu + e.cost)) heur d ≤ cu + heur u := by
        intro d hd
        rw [hfd d hd]
        exact hbound d hd
      have hmem' : ∀ x, x ∈ q' ++ (pushed ++ [e.eto]) → ¬(x = e.eto) →
          x ∈ q' ++ pushed := by
        intro x hx hne
        rcases List.mem_append.mp hx with hx1 | hx2
        · exact List.mem_append.mpr (Or.inl hx1)
        · rcases List.mem_append.mp hx2 with hx3 | hx4
          · exact List.mem_append.mpr (Or.inr hx3)
          · exact absurd (List.mem_singleton.mp hx4) hne
      refine ih (setValue costs e.eto (cu + e.cost)) (setValue paths e.eto u)
        (pushed ++ [e.eto]) (fun e' he' => hes e' (List.mem_cons_of_mem e he'))
        hcu' ?_ hbound'
      refine ⟨?_, ?_, ?_, ?_, ?_, ?_, ?_⟩
      · rw [getValue_setValue_ne costs e.eto start (cu + e.cost) hstv]
        exact hinv.startCost
      · intro v cv hv
        rw [setValue, getValue] at hv
        split at hv
        · cases hv
          have h0 : (0 : Int) ≤ cu := hinv.nonnegCost u cu hcu
          have h0' : (0 : Int) ≤ e.cost := hnn u e he
          linarith
        · exact hinv.nonnegCost v cv hv
      · intro v p hvp
        rw [setValue, getValue] at hvp
        split at hvp
        · rename_i heq
          cases hvp
          refine ⟨e, he, heq, cu + e.cost, cu, ?_, hcu', rfl⟩
          rw [← heq]
          exact getValue_setValue_self costs e.eto (cu + e.cost)
        · rename_i hne
          obtain ⟨e', he', heto', cv, cp, hcv, hcp, hsum⟩ := hinv.tight v p hvp
          have hdp : D p ∨ p = u := hinv.closedParent v p hvp
          have hnep : ¬(e.eto = p) := fun heq => ht (by rw [heq]; exact hdp)
          refine ⟨e', he', heto', cv, cp, ?_, ?_, hsum⟩
          · rw [getValue_setValue_ne costs e.eto v (cu + e.cost) hne]
            exact hcv
          · rw [getValue_setValue_ne costs e.eto p (cu + e.cost) hnep]
            exact hcp
      · intro v p hvp
        rw [setValue, getValue] at hvp
        split at hvp
        · cases hvp; exact Or.inr rfl
        · exact hinv.closedParent v p hvp
      · intro d hd
        have hne : e.eto ≠ d := fun heq => ht (by rw [heq]; exact hd)
        rw [getValue_setValue_ne costs e.eto d (cu + e.cost) hne]
        exact hinv.closedCost d hd
      · intro d hd x hx
        rw [hfd d hd]
        by_cases hxe : x = e.eto
        · subst hxe
          have hxval : fval (setValue costs e.eto (cu + e.cost)) heur e.eto
              = (cu + e.cost) + heur e.eto := by
            rw [fval, getValue_setValue_self costs e.eto (cu + e.cost)]
            simp only [Option.getD_some]
          rw [hxval]
          have hb := hbound d hd
          linarith
        · have hx' := hmem' x hx hxe
          have hxv : fval (setValue costs e.eto (cu + e.cost)) heur x
              = fval costs heur x := by
            rw [fval, fval, getValue_setValue_ne costs e.eto x (cu + e.cost)
              (fun heq => hxe heq.symm)]
          rw [hxv]
          exact hinv.frontier d hd x hx'
      · intro x hx
        by_cases hxe : x = e.eto
        · subst hxe
          rw [getValue_setValue_self costs e.eto (cu + e.cost)]
          rfl
        · have hx' := hmem' x hx hxe
          rw [getValue_setValue_ne costs e.eto x (cu + e.cost) (fun heq => hxe heq.symm)]
          exact hinv.queueCost x hx'
    · rw [if_neg hc]
      exact ih costs paths pushed (fun e' he' => hes e' (List.mem_cons_of_mem e he'))
        hcu hinv hbound

/-- The main loop preserves the A* invariant across iterations and, when
it dequeues a goal node, hands back cost and predecessor maps satisfying
it, with a recorded cost for the returned node. -/
theorem aStarLoop_inv {Node : Type} [DecidableEq Node] (graph : Graph Node)
    (goalFun : Node → Bool) (heur : Node → Int) (start : Node)
    (hnn : NonnegCosts graph) (hcons : ConsistentHeur graph heur) :
    ∀ (fuel : Nat) (D : Node → Prop) (q : List Node) (costs : List (Node × Int))
      (paths : List (Node × Node)) (node : Node) (costs' : List (Node × Int))
      (paths' : List (Node × Node)),
      SearchInv graph heur start D q costs paths →
      aStarLoop graph goalFun heur fuel q costs paths = some (some (node, costs', paths')) →
      ∃ (D' : Node → Prop) (q'' : List Node),
        SearchInv graph heur start D' q'' costs' paths' ∧
        (getValue costs' node).isSome = true := by
  intro fuel
  induction fuel with
  | zero => intro D q costs paths node costs' paths' _ hrun; cases hrun
  | succ fuel ih =>
    intro D q costs paths node costs' paths' hinv hrun
    match q with
    | [] => cases hrun
    | x :: xs =>
      rw [aStarLoop] at hrun
      cases hext : extractMin (fval costs heur) (x :: xs) with
      | none => rw [hext] at hrun; cases hrun
      | some pr =>
        obtain ⟨u, q'⟩ := pr
        rw [hext] at hrun
        dsimp only at hrun
        obtain ⟨hu_mem, hu_min, hq'_sub⟩ :=
          extractMin_min (fval costs heur) (x :: xs) u q' hext
        by_cases hgoal : goalFun u
        · rw [if_pos hgoal] at hrun
          cases hrun
          exact ⟨D, x :: xs, hinv, hinv.queueCost _ hu_mem⟩
        · rw [if_neg hgoal] at hrun
          cases hgetu : getValue costs u with
          | none =>
            have hpres := hinv.queueCost u hu_mem
            rw [hgetu] at hpres
            simp at hpres
          | some cu =>
            rw [hgetu] at hrun
            simp only [Option.getD_some] at hrun
            have hinv1 : SearchInv graph heur start (fun v => D v ∨ v = u)
                (q' ++ []) costs paths := by
              refine ⟨hinv.startCost, hinv.nonnegCost, hinv.tight, ?_, ?_, ?_, ?_⟩
              · intro v p hvp
                exact Or.inl (hinv.closedParent v p hvp)
              · intro d hd
                rcases hd with hd | rfl
                · exact hinv.closedCost d hd
                · rw [hgetu]; rfl
              · intro d hd y hy
                rw [List.append_nil] at hy
                rcases hd with hd | rfl
                · exact hinv.frontier d hd y (hq'_sub y hy)
                · exact hu_min y (hq'_sub y hy)
              · intro y hy
                rw [List.append_nil] at hy
                exact hinv.queueCost y (hq'_sub y hy)
            have hfu : fval costs heur u = cu + heur u := by
              rw [fval, hgetu]
              simp only [Option.getD_some]
            have hbound1 : ∀ d, D d ∨ d = u → fval costs heur d ≤ cu + heur u := by
              intro d hd
              rcases hd with hd | rfl
              · exact le_trans (hinv.frontier d hd u hu_mem) (le_of_eq hfu)
              · exact le_of_eq hfu
            obtain ⟨hinv2, _, _⟩ := relaxEdges_inv graph heur start hnn hcons D u cu q'
              (graph.outgoingEdges u) costs paths [] (fun e heq => heq) hgetu hinv1 hbound1
            exact ih _ _ _ _ node costs' paths' hinv2 hrun

/-- Extending a cost-annotated chain by one more edge at its end adds the
edge's cost to the sum. -/
theorem chainCost_append_last {Node : Type} (graph : Graph Node) :
    ∀ (l : List Node) (a p b : Node) (c : Int) (e : Edge Node),
      ChainCost graph a l c → (a :: l).getLast? = some p →
      e ∈ graph.outgoingEdges p → e.eto = b →
      ChainCost graph a (l ++ [b]) (c + e.cost) := by
  intro l
  induction l with
  | nil =>
    intro a p b c e hc hlast he heto
    have hp : p = a := by simpa using hlast.symm
    subst hp
    have hc0 : c = 0 := hc
    exact ⟨e, he, heto, 0, rfl, by rw [hc0, zero_add, add_zero]⟩
  | cons x rest ih =>
    intro a p b c e hc hlast he heto
    obtain ⟨e0, he0, heto0, c0, hc0, hceq⟩ := hc
    have hlast2 : (x :: rest).getLast? = some p := by
      simpa [List.getLast?_cons_cons] using hlast
    exact ⟨e0, he0, heto0, c0 + e.cost, ih x p b c0 e hc0 hlast2 he heto,
      by rw [hceq]; ring⟩

/-- When every recorded link is tight and the start's recorded cost is
`0`, the reconstruction loop yields a chain whose edge-cost sum is the
queried node's recorded cost. -/
theorem rebuild_cost {Node : Type} [DecidableEq Node] (graph : Graph Node)
    (costs : List (Node × Int)) (paths : List (Node × Node)) (start : Node)
    (htight : ∀ v p, getValue paths v = some p →
      ∃ e ∈ graph.outgoingEdges p, e.eto = v ∧ ∃ cv cp,
        getValue costs v = some cv ∧ getValue costs p = some cp ∧ cv = cp + e.cost)
    (hstart : getValue costs start = some 0) :
    ∀ (fuel : Nat) (node : Node) (l : List Node) (cn : Int),
      rebuild paths start fuel node = some l → getValue costs node = some cn →
      ChainCost graph start l cn ∧ (start :: l).getLast? = some node := by
  intro fuel
  induction fuel with
  | zero => intro node l cn hreb _; cases hreb
  | succ fuel ih =>
    intro node l cn hreb hcn
    rw [rebuild] at hreb
    by_cases hseq : node = start
    · rw [if_pos hseq] at hreb
      cases hreb
      subst hseq
      rw [hstart] at hcn
      cases hcn
      exact ⟨rfl, by simp⟩
    · rw [if_neg hseq] at hreb
      cases hget : getValue paths node with
      | none => rw [hget] at hreb; cases hreb
      | some p =>
        rw [hget] at hreb
        dsimp only at hreb
        cases hreb' : rebuild paths start fuel p with
        | none => rw [hreb'] at hreb; cases hreb
        | some l' =>
          rw [hreb'] at hreb
          cases hreb
          obtain ⟨e, he, heto, cv, cp, hcv, hcp, hsum⟩ := htight node p hget
          rw [hcv] at hcn
          have hcvn : cv = cn := Option.some.inj hcn
          obtain ⟨hchain, hlast⟩ := ih p l' cp hreb' hcp
          constructor
          · show ChainCost graph start (l' ++ [node]) cn
            rw [← hcvn, hsum]
            exact chainCost_append_last graph l' start p node cp e hchain hlast he heto
          · show ((start :: l') ++ [node]).getLast? = some node
            rw [List.getLast?_concat]

/-- C1 amended: whenever `aStarSearch` returns a result, its path is a
sequence of nodes each reached from its predecessor by a graph edge,
running from the start (exclusive) to a node satisfying the goal
predicate (inclusive, as the last element; the path is empty exactly when
the dequeued goal node is the start), and the no-path outcome is the
distinct value `undefined` (here `some none`), never a partial path — in
particular a no-path outcome implies the start itself fails the goal
test.  Moreover, when every edge cost is nonnegative and the heuristic
is consistent along edges, the reported cost is the sum of the traversed
edges' costs (with arbitrary edge costs it need not be, as the
counterexample shows). -/
theorem C1_amended {Node : Type} [DecidableEq Node] (graph : Graph Node)
    (start : Node) (goalFun : Node → Bool) (heuristicsFun : Node → Int)
    (timeout : Int) (fuel : Nat) :
    (∀ r, aStarSearch graph start goalFun heuristicsFun timeout fuel = some (some r) →
      EdgeChain graph (start :: r.path) ∧
      (∃ last, (start :: r.path).getLast? = some last ∧ goalFun last = true)) ∧
    (aStarSearch graph start goalFun heuristicsFun timeout fuel = some none →
      goalFun start = false) ∧
    (NonnegCosts graph → ConsistentHeur graph heuristicsFun →
      ∀ r, aStarSearch graph start goalFun heuristicsFun timeout fuel = some (some r) →
        ChainCost graph start r.path r.cost) := by
  refine ⟨?_, ?_, ?_⟩
  · intro r hr
    rw [aStarSearch] at hr
    cases hloop : aStarLoop graph goalFun heuristicsFun fuel [start]
        (setValue [] start 0) [] with
    | none => rw [hloop] at hr; cases hr
    | some o =>
      cases o with
      | none => rw [hloop] at hr; cases hr
      | some trip =>
        obtain ⟨node, costs', paths'⟩ := trip
        rw [hloop] at hr
        dsimp only at hr
        obtain ⟨hwf, hgoal⟩ := aStarLoop_wf graph goalFun heuristicsFun fuel [start]
          (setValue [] start 0) [] node costs' paths' (fun pr hpr => by cases hpr) hloop
        cases hreb : rebuild paths' start fuel node with
        | none => rw [hreb] at hr; cases hr
        | some p =>
          rw [hreb] at hr
          cases hr
          obtain ⟨hchain, hlast⟩ := rebuild_chain graph paths' start hwf fuel node p hreb
          exact ⟨hchain, node, hlast, hgoal⟩
  · intro hnone
    cases fuel with
    | zero => rw [aStarSearch] at hnone; cases hnone
    | succ fuel =>
      by_cases hgoal : goalFun start
      · exfalso
        rw [aStarSearch] at hnone
        have hloop : aStarLoop graph goalFun heuristicsFun (fuel + 1) [start]
            (setValue [] start 0) [] =
            some (some (start, setValue [] start 0, [])) := by
          rw [aStarLoop]
          simp [extractMin, hgoal]
        rw [hloop] at hnone
        dsimp only at hnone
        have hreb : rebuild ([] : List (Node × Node)) start (fuel + 1) start =
            some [] := by rw [rebuild, if_pos rfl]
        rw [hreb] at hnone
        cases hnone
      · exact Bool.not_eq_true _ |>.mp hgoal
  · intro hnn hcons r hr
    rw [aStarSearch] at hr
    cases hloop : aStarLoop graph goalFun heuristicsFun fuel [start]
        (setValue [] start 0) [] with
    | none => rw [hloop] at hr; cases hr
    | some o =>
      cases o with
      | none => rw [hloop] at hr; cases hr
      | some trip =>
        obtain ⟨node, costsF, pathsF⟩ := trip
        rw [hloop] at hr
        dsimp only at hr
        have hinv0 : SearchInv graph heuristicsFun start (fun _ => False) [start]
            (setValue [] start 0) [] := by
          refine ⟨getValue_setValue_self [] start 0, ?_, ?_, ?_, ?_, ?_, ?_⟩
          · intro v cv hv
            rw [setValue, getValue] at hv
            split at hv
            · cases hv; exact le_refl 0
            · cases hv
          · intro v p hvp; cases hvp
          · intro v p hvp; cases hvp
          · intro d hd; cases hd
          · intro d hd y hy; cases hd
          · intro y hy
            have hys : y = start := List.mem_singleton.mp hy
            subst hys
            rw [getValue_setValue_self]
            rfl
        obtain ⟨D'', q'', hinvF, hsome⟩ := aStarLoop_inv graph goalFun heuristicsFun start
          hnn hcons fuel (fun _ => False) [start] (setValue [] start 0) [] node costsF
          pathsF hinv0 hloop
        cases hreb : rebuild pathsF start fuel node with
        | none => rw [hreb] at hr; cases hr
        | some pth =>
          rw [hreb] at hr
          cases hr
          cases hgetn : getValue costsF node with
          | none => rw [hgetn] at hsome; simp at hsome
          | some cn =>
            obtain ⟨hchain, _⟩ := rebuild_cost graph costsF pathsF start hinvF.tight
              hinvF.startCost fuel node pth cn hreb hgetn
            exact hchain

/-- Witness for C1's amended statement: on a concrete two-node graph the
returned path is the single goal node, edge-linked from the start, and —
the edge cost being nonnegative and the zero heuristic consistent — the
reported cost `1` is the traversed edge-cost sum. -/
theorem C1_amended_witness :
    (EdgeChain (Graph.mk (fun _ => [⟨0, 1, 1⟩]) (fun _ _ => 0)) ((0 : Nat) :: [1]) ∧
      (∃ last, ((0 : Nat) :: [1]).getLast? = some last ∧ (last == 1) = true)) ∧
    ChainCost (Graph.mk (fun _ => [⟨0, 1, 1⟩]) (fun _ _ => 0)) (0 : Nat) [1] 1 := by
  constructor
  · exact (C1_amended (Graph.mk (fun _ => [⟨0, 1, 1⟩]) (fun _ _ => 0))
      0 (fun n => n == 1) (fun _ => 0) 5 10).1 ⟨[1], 1⟩ (by decide)
  · exact (C1_amended (Graph.mk (fun _ => [⟨0, 1, 1⟩]) (fun _ _ => 0))
      0 (fun n => n == 1) (fun _ => 0) 5 10).2.2
      (by intro n e he; rw [List.mem_singleton] at he; subst he; norm_num)
      (by intro n e he; rw [List.mem_singleton] at he; subst he; norm_num)
      ⟨[1], 1⟩ (by decide)

end Shrdlite
